import Mathlib

set_option linter.unusedVariables false

/-!
# Verification of the board-text locator of `DashboardPage`

This file gives a shallow embedding of the column/tag inference routine of
`src/pages/LoginPage.js` (class `DashboardPage`, methods `getTaskColumn` and
`getTaskTags`) and proves the specified properties about it.

Strings are modelled as `List Char` (the JavaScript code only uses
`String.prototype.indexOf`, string concatenation and equality, all of which
are faithfully reproduced on `List Char`).  The Playwright page object is
abstracted, following the spec's external-interface contract, to the single
flattened visible-text string that `page.textContent('body')` returns.
-/

namespace Board

/-- First index at which `pat` occurs as a (contiguous) prefix of a suffix of
`l`; `none` if `pat` occurs nowhere.  This is the `fromIndex = 0` core of
JavaScript `String.prototype.indexOf`. -/
def firstMatch (pat : List Char) : List Char → Option Nat
  | [] => if pat.isPrefixOf ([] : List Char) then some 0 else none
  | c :: tl =>
    if pat.isPrefixOf (c :: tl) then some 0
    else (firstMatch pat tl).map (· + 1)

/-- JavaScript `s.indexOf(pat, start)`: the first occurrence of `pat` in `s`
at an index at least `min start s.length` (the `fromIndex` is clamped to the
string length), `none` standing for the JavaScript result `-1`. -/
def jsIndexOf (s pat : List Char) (start : Nat) : Option Nat :=
  (firstMatch pat (s.drop (min start s.length))).map (· + min start s.length)

/-- `pat` occurs in `b` at index `i` (as a contiguous substring starting
there). -/
def occursAt (b pat : List Char) (i : Nat) : Prop :=
  pat <+: b.drop i

instance (b pat : List Char) (i : Nat) : Decidable (occursAt b pat i) :=
  decidable_of_iff (pat.isPrefixOf (b.drop i) = true)
    (by simp [occursAt])

/-- The fixed column list of `DashboardPage` (`this.COLUMNS`,
src/pages/LoginPage.js line 68). -/
def COLUMNS : List String := ["To Do", "In Progress", "Review", "Done"]

/-- The header marker of a column: the literal `columnName + " ("`
(src/pages/LoginPage.js line 103), as a character list. -/
def markerL (c : String) : List Char := (c ++ " (").data

/-- The inner loop of `getTaskColumn` computing `nextColumnIndex`
(src/pages/LoginPage.js lines 109-117), written as explicit recursion over
the remaining column names with the accumulator `acc` (initially
`pageText.length`).  A candidate `nextIdx` is `pageText.indexOf(nextCol + " (",
columnIndex + 1)` and replaces the accumulator when
`nextIdx > columnIndex && nextIdx < acc`; the JavaScript `-1` (not found)
never passes the first test and is modelled by `none`. -/
def nextColFold (pageText : List Char) (columnName : String) (columnIndex : Nat) :
    List String → Nat → Nat
  | [], acc => acc
  | nextCol :: rest, acc =>
    if nextCol = columnName then nextColFold pageText columnName columnIndex rest acc
    else
      match jsIndexOf pageText (markerL nextCol) (columnIndex + 1) with
      | none => nextColFold pageText columnName columnIndex rest acc
      | some nextIdx =>
        if columnIndex < nextIdx ∧ nextIdx < acc then
          nextColFold pageText columnName columnIndex rest nextIdx
        else nextColFold pageText columnName columnIndex rest acc

/-- `nextColumnIndex` as computed by `getTaskColumn` for the column
`columnName` whose marker sits at `columnIndex`: the fold over all columns
starting from `pageText.length` (src/pages/LoginPage.js lines 109-117). -/
def nextColumnIndexCalc (pageText : List Char) (columnName : String) (columnIndex : Nat) : Nat :=
  nextColFold pageText columnName columnIndex COLUMNS pageText.length

/-- The error message thrown by `getTaskColumn` when no column span contains
the task (src/pages/LoginPage.js line 126). -/
def taskNotFoundMsg (taskName : List Char) : List Char :=
  ("Could not determine column for task: ").data ++ taskName

/-- The column loop of `getTaskColumn` (src/pages/LoginPage.js lines
101-126), recursing over the remaining column names: a column whose marker is
absent is skipped; otherwise the task index is
`pageText.indexOf(taskName, columnIndex)` and the column is returned when
`taskIndex > columnIndex && taskIndex < nextColumnIndex`.  Exhausting the
columns throws, modelled as `Except.error`. -/
def getTaskColumnGo (pageText taskName : List Char) :
    List String → Except (List Char) String
  | [] => .error (taskNotFoundMsg taskName)
  | columnName :: rest =>
    match jsIndexOf pageText (markerL columnName) 0 with
    | none => getTaskColumnGo pageText taskName rest
    | some columnIndex =>
      match jsIndexOf pageText taskName columnIndex with
      | none => getTaskColumnGo pageText taskName rest
      | some taskIndex =>
        if columnIndex < taskIndex ∧
            taskIndex < nextColumnIndexCalc pageText columnName columnIndex then
          .ok columnName
        else getTaskColumnGo pageText taskName rest

/-- `DashboardPage.getTaskColumn` (src/pages/LoginPage.js lines 96-127) over
the flattened page text: iterate `COLUMNS` in the fixed order and return the
first column whose text span contains the task name, else the thrown error. -/
def getTaskColumn (pageText taskName : List Char) : Except (List Char) String :=
  getTaskColumnGo pageText taskName COLUMNS

/-- The fixed tag vocabulary of `getTaskTags`
(src/pages/LoginPage.js line 138). -/
def possibleTags : List String := ["Feature", "Bug", "Design", "High Priority"]

/-- Modelled from the spec: the presence test
`page.getByText(tag, { exact: true }).count() > 0` used by `getTaskTags`
(src/pages/LoginPage.js lines 142-144) is a call into the external Playwright
library, whose code is not part of this repository.  Per the spec (§4.2 /
§6), the page is abstracted to its flattened visible text and a tag is
detected exactly when it "occurs verbatim (exact text, not
substring-boundary-aware) anywhere in `boardText`". -/
def tagVisible (pageText tag : List Char) : Bool :=
  (firstMatch tag pageText).isSome

/-- `DashboardPage.getTaskTags` (src/pages/LoginPage.js lines 135-150): keep,
in order, the tags of the fixed vocabulary that are visible on the page.  The
`taskName` parameter is kept to mirror the JavaScript signature even though
the body never reads it. -/
def getTaskTags (pageText : List Char) (taskName : List Char) : List String :=
  possibleTags.filter (fun tag => tagVisible pageText tag.data)

/-- Some column other than `c` has its header marker occurring at index `j`
of the board text.  All columns of the fixed list participate, regardless of
their position in the fixed order. -/
def otherMarkerAt (b : List Char) (c : String) (j : Nat) : Prop :=
  ∃ c', c' ∈ COLUMNS ∧ c' ≠ c ∧ occursAt b (markerL c') j

/-- `e` is the end boundary of the span of column `c` whose marker sits at
`mi`, in the words of the spec (§4.1 step 3): the nearest index strictly
after `mi` at which any *other* column's marker occurs, or the end of the
string when none follows. -/
def IsSpanEnd (b : List Char) (c : String) (mi e : Nat) : Prop :=
  mi < e ∧ e ≤ b.length ∧ (e = b.length ∨ otherMarkerAt b c e) ∧
    ∀ j, mi < j → j < e → ¬ otherMarkerAt b c j

/-- The success condition of one iteration of the `getTaskColumn` loop for
column `c`: the marker is present at `mi`, and the first occurrence of the
task name at or after `mi` lands strictly inside `(mi, nextColumnIndex)`. -/
def columnHit (b t : List Char) (c : String) : Prop :=
  ∃ mi ti, jsIndexOf b (markerL c) 0 = some mi ∧ jsIndexOf b t mi = some ti ∧
    mi < ti ∧ ti < nextColumnIndexCalc b c mi

/-- The span-level description of a column containing the task name: the
marker of `c` is present at `mi`, the span of `c` ends at `e` (per the §4.1
end-boundary rule), and the first occurrence of the task name at or after
`mi` falls strictly inside `(mi, e)` (the start index itself is excluded:
the code requires `taskIndex > columnIndex`). -/
def inSpanStrict (b t : List Char) (c : String) : Prop :=
  ∃ mi e ti, jsIndexOf b (markerL c) 0 = some mi ∧ IsSpanEnd b c mi e ∧
    jsIndexOf b t mi = some ti ∧ mi < ti ∧ ti < e

/-! ## Basic facts about `firstMatch` and `jsIndexOf` -/

theorem firstMatch_some_hits {pat l : List Char} {n : Nat}
    (h : firstMatch pat l = some n) : pat <+: l.drop n := by
  induction l generalizing n with
  | nil =>
    unfold firstMatch at h
    by_cases hp : pat <+: ([] : List Char)
    · simp [hp] at h
      simpa [← h, List.drop_nil] using hp
    · simp [hp] at h
  | cons c tl ih =>
    unfold firstMatch at h
    by_cases hp : pat <+: (c :: tl)
    · simp [hp] at h
      simpa [← h] using hp
    · simp [hp, Option.map_eq_some'] at h
      obtain ⟨m, hm, rfl⟩ := h
      simpa using ih hm

theorem firstMatch_some_min {pat l : List Char} {n : Nat}
    (h : firstMatch pat l = some n) :
    ∀ m, m < n → ¬ pat <+: l.drop m := by
  induction l generalizing n with
  | nil =>
    unfold firstMatch at h
    by_cases hp : pat <+: ([] : List Char)
    · simp [hp] at h
      intro m hm; omega
    · simp [hp] at h
  | cons c tl ih =>
    unfold firstMatch at h
    by_cases hp : pat <+: (c :: tl)
    · simp [hp] at h
      intro m hm; omega
    · simp [hp, Option.map_eq_some'] at h
      obtain ⟨k, hk, rfl⟩ := h
      intro m hm
      cases m with
      | zero => simpa using hp
      | succ m' =>
        have := ih hk m' (by omega)
        simpa using this

theorem firstMatch_none {pat l : List Char}
    (h : firstMatch pat l = none) :
    ∀ m, ¬ pat <+: l.drop m := by
  induction l with
  | nil =>
    unfold firstMatch at h
    by_cases hp : pat <+: ([] : List Char)
    · simp [hp] at h
    · intro m; simpa [List.drop_nil] using hp
  | cons c tl ih =>
    unfold firstMatch at h
    by_cases hp : pat <+: (c :: tl)
    · simp [hp] at h
    · simp [hp] at h
      intro m
      cases m with
      | zero => simpa using hp
      | succ m' => simpa using ih h m'

theorem firstMatch_of_hit {pat l : List Char} {m : Nat}
    (h : pat <+: l.drop m) :
    ∃ n, firstMatch pat l = some n ∧ n ≤ m := by
  induction l generalizing m with
  | nil =>
    refine ⟨0, ?_, Nat.zero_le m⟩
    unfold firstMatch
    simp [List.drop_nil] at h
    simp [h]
  | cons c tl ih =>
    by_cases hp : pat <+: (c :: tl)
    · exact ⟨0, by unfold firstMatch; simp [hp], Nat.zero_le m⟩
    · cases m with
      | zero => exact absurd h hp
      | succ m' =>
        simp at h
        obtain ⟨n, hn, hle⟩ := ih h
        refine ⟨n + 1, ?_, by omega⟩
        unfold firstMatch
        simp [hp, hn]

theorem firstMatch_some_le {pat l : List Char} {n : Nat}
    (h : firstMatch pat l = some n) : n ≤ l.length := by
  induction l generalizing n with
  | nil =>
    unfold firstMatch at h
    by_cases hp : pat <+: ([] : List Char)
    · simp [hp] at h; omega
    · simp [hp] at h
  | cons c tl ih =>
    unfold firstMatch at h
    by_cases hp : pat <+: (c :: tl)
    · simp [hp] at h; omega
    · simp [hp, Option.map_eq_some'] at h
      obtain ⟨k, hk, rfl⟩ := h
      have := ih hk
      simp; omega

/-! ## Facts about `jsIndexOf` -/

theorem jsIndexOf_some_occurs {s pat : List Char} {start n : Nat}
    (h : jsIndexOf s pat start = some n) :
    occursAt s pat n ∧ min start s.length ≤ n := by
  unfold jsIndexOf at h
  rw [Option.map_eq_some'] at h
  obtain ⟨k, hk, rfl⟩ := h
  refine ⟨?_, by omega⟩
  have := firstMatch_some_hits hk
  rw [List.drop_drop] at this
  simpa [occursAt, Nat.add_comm] using this

theorem jsIndexOf_some_min {s pat : List Char} {start n : Nat}
    (h : jsIndexOf s pat start = some n) :
    ∀ m, min start s.length ≤ m → m < n → ¬ occursAt s pat m := by
  unfold jsIndexOf at h
  rw [Option.map_eq_some'] at h
  obtain ⟨k, hk, rfl⟩ := h
  intro m hm hmn hocc
  have hlt : m - min start s.length < k := by omega
  have := firstMatch_some_min hk (m - min start s.length) hlt
  rw [List.drop_drop] at this
  have hm' : min start s.length + (m - min start s.length) = m := by omega
  rw [hm'] at this
  exact this hocc

theorem jsIndexOf_none {s pat : List Char} {start : Nat}
    (h : jsIndexOf s pat start = none) :
    ∀ m, min start s.length ≤ m → ¬ occursAt s pat m := by
  unfold jsIndexOf at h
  rw [Option.map_eq_none'] at h
  intro m hm hocc
  have := firstMatch_none h (m - min start s.length)
  rw [List.drop_drop] at this
  have hm' : min start s.length + (m - min start s.length) = m := by omega
  rw [hm'] at this
  exact this hocc

theorem jsIndexOf_of_occurs {s pat : List Char} {start m : Nat}
    (hocc : occursAt s pat m) (hm : min start s.length ≤ m) :
    ∃ n, jsIndexOf s pat start = some n ∧ n ≤ m := by
  have hocc' : pat <+: (s.drop (min start s.length)).drop (m - min start s.length) := by
    rw [List.drop_drop]
    have hm' : min start s.length + (m - min start s.length) = m := by omega
    rw [hm']
    exact hocc
  obtain ⟨n, hn, hle⟩ := firstMatch_of_hit hocc'
  refine ⟨n + min start s.length, ?_, by omega⟩
  unfold jsIndexOf
  rw [hn]
  rfl

theorem jsIndexOf_some_ge {s pat : List Char} {start n : Nat}
    (h : jsIndexOf s pat start = some n) : min start s.length ≤ n :=
  (jsIndexOf_some_occurs h).2

theorem jsIndexOf_some_le_length {s pat : List Char} {start n : Nat}
    (h : jsIndexOf s pat start = some n) : n ≤ s.length := by
  unfold jsIndexOf at h
  rw [Option.map_eq_some'] at h
  obtain ⟨k, hk, rfl⟩ := h
  have := firstMatch_some_le hk
  have := List.length_drop (min start s.length) s ▸ this
  omega

theorem occursAt_lt_length {s pat : List Char} {n : Nat}
    (hocc : occursAt s pat n) (hne : pat ≠ []) : n < s.length := by
  unfold occursAt at hocc
  have hlen := hocc.length_le
  have hplen : 0 < pat.length := List.length_pos.mpr hne
  have := List.length_drop n s
  omega

theorem markerL_ne_nil (c : String) : markerL c ≠ [] := by
  simp [markerL, String.data_append]

/-! ## The `nextColumnIndex` fold -/

theorem nextColFold_le_acc (b : List Char) (c : String) (mi : Nat) :
    ∀ (L : List String) (acc : Nat), nextColFold b c mi L acc ≤ acc := by
  intro L
  induction L with
  | nil => intro acc; simp [nextColFold]
  | cons c₀ rest ih =>
    intro acc
    unfold nextColFold
    by_cases hc₀ : c₀ = c
    · simpa [hc₀] using ih acc
    · simp only [hc₀, if_false]
      cases hidx : jsIndexOf b (markerL c₀) (mi + 1) with
      | none => exact ih acc
      | some nextIdx =>
        by_cases hguard : mi < nextIdx ∧ nextIdx < acc
        · simp only [hguard, if_true]
          exact le_trans (ih nextIdx) (le_of_lt hguard.2)
        · simp only [hguard, if_false]
          exact ih acc

theorem nextColFold_eq_or_hit (b : List Char) (c : String) (mi : Nat) :
    ∀ (L : List String) (acc : Nat),
      nextColFold b c mi L acc = acc ∨
        ∃ c', c' ∈ L ∧ c' ≠ c ∧
          jsIndexOf b (markerL c') (mi + 1) = some (nextColFold b c mi L acc) ∧
          mi < nextColFold b c mi L acc := by
  intro L
  induction L with
  | nil => intro acc; left; simp [nextColFold]
  | cons c₀ rest ih =>
    intro acc
    unfold nextColFold
    by_cases hc₀ : c₀ = c
    · simp only [hc₀, if_true]
      rcases ih acc with h | ⟨c', hc', hne, hj, hlt⟩
      · exact Or.inl h
      · exact Or.inr ⟨c', List.mem_cons_of_mem _ hc', hne, hj, hlt⟩
    · simp only [hc₀, if_false]
      cases hidx : jsIndexOf b (markerL c₀) (mi + 1) with
      | none =>
        rcases ih acc with h | ⟨c', hc', hne, hj, hlt⟩
        · exact Or.inl h
        · exact Or.inr ⟨c', List.mem_cons_of_mem _ hc', hne, hj, hlt⟩
      | some nextIdx =>
        by_cases hguard : mi < nextIdx ∧ nextIdx < acc
        · simp only [hguard, if_true]
          rcases ih nextIdx with h | ⟨c', hc', hne, hj, hlt⟩
          · exact Or.inr ⟨c₀, List.mem_cons_self _ _, hc₀, by rw [h]; exact hidx,
              by rw [h]; exact hguard.1⟩
          · exact Or.inr ⟨c', List.mem_cons_of_mem _ hc', hne, hj, hlt⟩
        · simp only [hguard, if_false]
          rcases ih acc with h | ⟨c', hc', hne, hj, hlt⟩
          · exact Or.inl h
          · exact Or.inr ⟨c', List.mem_cons_of_mem _ hc', hne, hj, hlt⟩

theorem nextColFold_le_candidate (b : List Char) (c : String) (mi : Nat) :
    ∀ (L : List String) (acc : Nat) (c' : String), c' ∈ L → c' ≠ c →
      ∀ k, jsIndexOf b (markerL c') (mi + 1) = some k → mi < k →
        nextColFold b c mi L acc ≤ k := by
  intro L
  induction L with
  | nil => intro acc c' hc'; exact absurd hc' (List.not_mem_nil _)
  | cons c₀ rest ih =>
    intro acc c' hc' hne k hk hmk
    unfold nextColFold
    by_cases hc₀ : c₀ = c
    · simp only [hc₀, if_true]
      rcases List.mem_cons.mp hc' with rfl | hmem
      · exact absurd hc₀ hne
      · exact ih acc c' hmem hne k hk hmk
    · simp only [hc₀, if_false]
      cases hidx : jsIndexOf b (markerL c₀) (mi + 1) with
      | none =>
        rcases List.mem_cons.mp hc' with rfl | hmem
        · rw [hidx] at hk; exact absurd hk (by simp)
        · exact ih acc c' hmem hne k hk hmk
      | some nextIdx =>
        by_cases hguard : mi < nextIdx ∧ nextIdx < acc
        · simp only [hguard, if_true]
          rcases List.mem_cons.mp hc' with rfl | hmem
          · rw [hidx] at hk
            have : nextIdx = k := by injection hk
            subst this
            exact nextColFold_le_acc b c mi rest nextIdx
          · exact ih nextIdx c' hmem hne k hk hmk
        · simp only [hguard, if_false]
          rcases List.mem_cons.mp hc' with rfl | hmem
          · rw [hidx] at hk
            have hnk : nextIdx = k := by injection hk
            subst hnk
            have hge : acc ≤ nextIdx := by
              by_contra hlt
              exact hguard ⟨hmk, by omega⟩
            exact le_trans (nextColFold_le_acc b c mi rest acc) hge
          · exact ih acc c' hmem hne k hk hmk

theorem lt_nextColFold (b : List Char) (c : String) (mi : Nat)
    (L : List String) (acc : Nat) (hacc : mi < acc) :
    mi < nextColFold b c mi L acc := by
  rcases nextColFold_eq_or_hit b c mi L acc with h | ⟨_, _, _, _, hlt⟩
  · omega
  · exact hlt

/-- The `nextColumnIndex` computed by the code is, in the words of the spec,
the end boundary of the span of `c`: the nearest other-column marker strictly
after `mi`, or the end of the string. -/
theorem nextColumnIndexCalc_isSpanEnd {b : List Char} {c : String} {mi : Nat}
    (hmi : jsIndexOf b (markerL c) 0 = some mi) :
    IsSpanEnd b c mi (nextColumnIndexCalc b c mi) := by
  have hoccm : occursAt b (markerL c) mi := (jsIndexOf_some_occurs hmi).1
  have hmilen : mi < b.length := occursAt_lt_length hoccm (markerL_ne_nil c)
  refine ⟨lt_nextColFold b c mi COLUMNS b.length hmilen,
    nextColFold_le_acc b c mi COLUMNS b.length, ?_, ?_⟩
  · rcases nextColFold_eq_or_hit b c mi COLUMNS b.length with h | ⟨c', hc', hne, hj, _⟩
    · exact Or.inl h
    · exact Or.inr ⟨c', hc', hne, (jsIndexOf_some_occurs hj).1⟩
  · intro j hmj hje ⟨c', hc', hne, hocc⟩
    have hjlen : j < b.length := occursAt_lt_length hocc (markerL_ne_nil c')
    have hmin : min (mi + 1) b.length ≤ j := by omega
    obtain ⟨k, hk, hkj⟩ := jsIndexOf_of_occurs hocc hmin
    have hkge : min (mi + 1) b.length ≤ k := jsIndexOf_some_ge hk
    have hmk : mi < k := by omega
    have := nextColFold_le_candidate b c mi COLUMNS b.length c' hc' hne k hk hmk
    unfold nextColumnIndexCalc at hje
    omega

theorem isSpanEnd_unique {b : List Char} {c : String} {mi e₁ e₂ : Nat}
    (h₁ : IsSpanEnd b c mi e₁) (h₂ : IsSpanEnd b c mi e₂) : e₁ = e₂ := by
  obtain ⟨hm₁, hl₁, hor₁, hmin₁⟩ := h₁
  obtain ⟨hm₂, hl₂, hor₂, hmin₂⟩ := h₂
  by_contra hne
  rcases Nat.lt_or_ge e₁ e₂ with hlt | hge
  · rcases hor₁ with rfl | hmark
    · omega
    · exact hmin₂ e₁ hm₁ hlt hmark
  · have hlt : e₂ < e₁ := by omega
    rcases hor₂ with rfl | hmark
    · omega
    · exact hmin₁ e₂ hm₂ hlt hmark

/-! ## The column loop of `getTaskColumn` -/

theorem getTaskColumnGo_skip {b t : List Char} {c : String} (rest : List String)
    (h : ¬ columnHit b t c) :
    getTaskColumnGo b t (c :: rest) = getTaskColumnGo b t rest := by
  cases hmi : jsIndexOf b (markerL c) 0 with
  | none => simp only [getTaskColumnGo, hmi]
  | some mi =>
    cases hti : jsIndexOf b t mi with
    | none => simp only [getTaskColumnGo, hmi, hti]
    | some ti =>
      by_cases hguard : mi < ti ∧ ti < nextColumnIndexCalc b c mi
      · exact absurd ⟨mi, ti, hmi, hti, hguard.1, hguard.2⟩ h
      · simp only [getTaskColumnGo, hmi, hti, hguard, if_false]

theorem getTaskColumnGo_hit {b t : List Char} {c : String} (rest : List String)
    (h : columnHit b t c) :
    getTaskColumnGo b t (c :: rest) = .ok c := by
  obtain ⟨mi, ti, hmi, hti, hlo, hhi⟩ := h
  simp only [getTaskColumnGo, hmi, hti]
  simp [hlo, hhi]

theorem getTaskColumnGo_error {b t : List Char} :
    ∀ (cols : List String), (∀ c ∈ cols, ¬ columnHit b t c) →
      getTaskColumnGo b t cols = .error (taskNotFoundMsg t) := by
  intro cols
  induction cols with
  | nil => intro _; rfl
  | cons c₀ rest ih =>
    intro h
    rw [getTaskColumnGo_skip rest (h c₀ (List.mem_cons_self _ _))]
    exact ih (fun c hc => h c (List.mem_cons_of_mem _ hc))

theorem getTaskColumnGo_ok {b t : List Char} {c : String} :
    ∀ (cols : List String), c ∈ cols → columnHit b t c →
      (∀ c' ∈ cols, c' ≠ c → ¬ columnHit b t c') →
      getTaskColumnGo b t cols = .ok c := by
  intro cols
  induction cols with
  | nil => intro h; exact absurd h (List.not_mem_nil _)
  | cons c₀ rest ih =>
    intro hmem hhit hothers
    by_cases hc₀ : c₀ = c
    · subst hc₀
      exact getTaskColumnGo_hit rest hhit
    · rw [getTaskColumnGo_skip rest
        (hothers c₀ (List.mem_cons_self _ _) hc₀)]
      rcases List.mem_cons.mp hmem with rfl | hmem'
      · exact absurd rfl hc₀
      · exact ih hmem' hhit (fun c' hc' => hothers c' (List.mem_cons_of_mem _ hc'))

theorem getTaskColumnGo_first {b t : List Char} {c : String} :
    ∀ (pre post : List String), (∀ c' ∈ pre, ¬ columnHit b t c') →
      columnHit b t c →
      getTaskColumnGo b t (pre ++ c :: post) = .ok c := by
  intro pre post
  induction pre with
  | nil => intro _ hhit; exact getTaskColumnGo_hit post hhit
  | cons c₀ rest ih =>
    intro hpre hhit
    rw [List.cons_append, getTaskColumnGo_skip _ (hpre c₀ (List.mem_cons_self _ _))]
    exact ih (fun c' hc' => hpre c' (List.mem_cons_of_mem _ hc')) hhit

/-- The loop-level success condition coincides with the span-level one. -/
theorem columnHit_iff_inSpanStrict {b t : List Char} {c : String} :
    columnHit b t c ↔ inSpanStrict b t c := by
  constructor
  · rintro ⟨mi, ti, hmi, hti, hlo, hhi⟩
    exact ⟨mi, nextColumnIndexCalc b c mi, ti, hmi,
      nextColumnIndexCalc_isSpanEnd hmi, hti, hlo, hhi⟩
  · rintro ⟨mi, e, ti, hmi, hspan, hti, hlo, hhi⟩
    have he : e = nextColumnIndexCalc b c mi :=
      isSpanEnd_unique hspan (nextColumnIndexCalc_isSpanEnd hmi)
    exact ⟨mi, ti, hmi, hti, hlo, he ▸ hhi⟩

/-! ## Membership in `getTaskTags` -/

theorem tagVisible_iff_occurs {b tag : List Char} :
    tagVisible b tag = true ↔ ∃ i, occursAt b tag i := by
  unfold tagVisible
  constructor
  · intro h
    cases hfm : firstMatch tag b with
    | none => rw [hfm] at h; simp at h
    | some n => exact ⟨n, firstMatch_some_hits hfm⟩
  · rintro ⟨i, hocc⟩
    obtain ⟨n, hn, _⟩ := firstMatch_of_hit hocc
    rw [hn]
    rfl

theorem mem_getTaskTags_iff {b t : List Char} {tag : String} :
    tag ∈ getTaskTags b t ↔ tag ∈ possibleTags ∧ ∃ i, occursAt b tag.data i := by
  unfold getTaskTags
  rw [List.mem_filter, tagVisible_iff_occurs]

/-! ## The claims -/

/-- C2: on the board text
`"To Do (2) Implement auth Fix bug In Progress (1) Design updates Done (0)"`
(the `Review` marker absent), `getTaskColumn` returns `To Do` for `Fix bug`,
`In Progress` for `Design updates`, and throws the not-found error naming
`Missing task` for `Missing task`. -/
theorem C2_concrete_scenario :
    getTaskColumn
        ("To Do (2) Implement auth Fix bug In Progress (1) Design updates Done (0)").data
        ("Fix bug").data = .ok "To Do" ∧
    getTaskColumn
        ("To Do (2) Implement auth Fix bug In Progress (1) Design updates Done (0)").data
        ("Design updates").data = .ok "In Progress" ∧
    getTaskColumn
        ("To Do (2) Implement auth Fix bug In Progress (1) Design updates Done (0)").data
        ("Missing task").data = .error (taskNotFoundMsg ("Missing task").data) :=
  ⟨rfl, rfl, rfl⟩

/-- C4: for every board text and every column whose marker is present at
`mi`, the `nextColumnIndex` computed by `getTaskColumn` is exactly the end
boundary of the column's span: the smallest index strictly greater than `mi`
at which any other column's marker occurs (end of string when none follows);
every other column of the fixed list participates in the bound, regardless
of its position in the fixed order. -/
theorem C4_span_end_boundary (b : List Char) (c : String) (mi : Nat)
    (hc : c ∈ COLUMNS) (hmi : jsIndexOf b (markerL c) 0 = some mi) :
    IsSpanEnd b c mi (nextColumnIndexCalc b c mi) :=
  nextColumnIndexCalc_isSpanEnd hmi

/-- Witness for C4, with a column (`In Progress`) that is *later* in the
fixed order than the column (`To Do`) whose marker bounds its span. -/
theorem C4_span_end_boundary_witness :
    "In Progress" ∈ COLUMNS ∧
    jsIndexOf ("In Progress (1) To Do (2)").data (markerL "In Progress") 0 = some 0 ∧
    IsSpanEnd ("In Progress (1) To Do (2)").data "In Progress" 0
      (nextColumnIndexCalc ("In Progress (1) To Do (2)").data "In Progress" 0) :=
  ⟨by decide, rfl, C4_span_end_boundary _ _ _ (by decide) rfl⟩

/-- C5: a task name that occurs nowhere in the board text makes
`getTaskColumn` fail with the thrown error whose message names the task,
never a column and never an empty result. -/
theorem C5_not_found_error (b t : List Char) (h : ∀ i, ¬ occursAt b t i) :
    getTaskColumn b t = .error (taskNotFoundMsg t) := by
  unfold getTaskColumn
  apply getTaskColumnGo_error
  rintro c _ ⟨mi, ti, hmi, hti, _, _⟩
  exact h ti (jsIndexOf_some_occurs hti).1

theorem C5_not_found_error_witness :
    (∀ i, ¬ occursAt ("To Do (0)").data ("zzz").data i) ∧
    getTaskColumn ("To Do (0)").data ("zzz").data =
      .error (taskNotFoundMsg ("zzz").data) := by
  have h : ∀ i, ¬ occursAt ("To Do (0)").data ("zzz").data i := by
    intro i hocc
    have hi : i < 9 := occursAt_lt_length hocc (by decide)
    interval_cases i <;> exact absurd hocc (by decide)
  exact ⟨h, C5_not_found_error _ _ h⟩

/-- C6: `getTaskTags` is total (it is a plain Lean function), and a
candidate tag of the fixed vocabulary is in the returned list exactly when
it occurs verbatim somewhere in the board text; an absent tag is simply not
in the list. -/
theorem C6_tag_membership (b t : List Char) (tag : String)
    (htag : tag ∈ possibleTags) :
    tag ∈ getTaskTags b t ↔ ∃ i, occursAt b tag.data i := by
  rw [mem_getTaskTags_iff]
  exact ⟨fun h => h.2, fun h => ⟨htag, h⟩⟩

theorem C6_tag_membership_witness :
    "Feature" ∈ possibleTags ∧
    (("Feature" ∈ getTaskTags ("x Feature y").data []) ↔
      ∃ i, occursAt ("x Feature y").data ("Feature").data i) :=
  ⟨by decide, C6_tag_membership _ _ _ (by decide)⟩

/-- C7: `getTaskTags` is monotonic in the board text — whenever every tag
occurrence of `b` is preserved in `b'`, no tag is lost — and its result is
always a subset of the candidate vocabulary. -/
theorem C7_tags_monotone_and_bounded (b b' t t' : List Char)
    (hpres : ∀ tag ∈ possibleTags, (∃ i, occursAt b tag.data i) →
      ∃ j, occursAt b' tag.data j) :
    (∀ tag, tag ∈ getTaskTags b t → tag ∈ getTaskTags b' t') ∧
    (∀ tag, tag ∈ getTaskTags b t → tag ∈ possibleTags) := by
  constructor
  · intro tag hmem
    rw [mem_getTaskTags_iff] at hmem ⊢
    exact ⟨hmem.1, hpres tag hmem.1 hmem.2⟩
  · intro tag hmem
    exact (mem_getTaskTags_iff.mp hmem).1

theorem C7_tags_monotone_and_bounded_witness :
    (∀ tag ∈ possibleTags, (∃ i, occursAt ("Bug").data tag.data i) →
      ∃ j, occursAt ("Feature Bug Design High Priority").data tag.data j) ∧
    ((∀ tag, tag ∈ getTaskTags ("Bug").data [] →
        tag ∈ getTaskTags ("Feature Bug Design High Priority").data []) ∧
      (∀ tag, tag ∈ getTaskTags ("Bug").data [] → tag ∈ possibleTags)) := by
  have hpres : ∀ tag ∈ possibleTags, (∃ i, occursAt ("Bug").data tag.data i) →
      ∃ j, occursAt ("Feature Bug Design High Priority").data tag.data j := by
    intro tag htag _
    fin_cases htag
    · exact ⟨0, by decide⟩
    · exact ⟨8, by decide⟩
    · exact ⟨12, by decide⟩
    · exact ⟨19, by decide⟩
  exact ⟨hpres, C7_tags_monotone_and_bounded _ _ _ _ hpres⟩

/-- C8: `getTaskColumn` and `getTaskTags` are pure functions of their
arguments — two calls on identical page text and identical arguments return
identical results (same column or same error, same tag list). -/
theorem C8_deterministic (b₁ b₂ t₁ t₂ : List Char) (hb : b₁ = b₂) (ht : t₁ = t₂) :
    getTaskColumn b₁ t₁ = getTaskColumn b₂ t₂ ∧
    getTaskTags b₁ t₁ = getTaskTags b₂ t₂ := by
  subst hb; subst ht; exact ⟨rfl, rfl⟩

theorem C8_deterministic_witness :
    ("a" : String) = "a" ∧
    getTaskColumn ("To Do (1) a").data ("a").data =
      getTaskColumn ("To Do (1) a").data ("a").data ∧
    getTaskTags ("To Do (1) a").data ("a").data =
      getTaskTags ("To Do (1) a").data ("a").data :=
  ⟨rfl, C8_deterministic _ _ _ _ rfl rfl⟩

/-- C9: the `taskName` argument of `getTaskTags` never influences the
result — the body checks the page-global tag vocabulary only. -/
theorem C9_taskName_independent (pageText t₁ t₂ : List Char) :
    getTaskTags pageText t₁ = getTaskTags pageText t₂ :=
  rfl

/-- C10: the list returned by `getTaskTags` is duplicate-free and is always
a subsequence of the fixed vocabulary
`["Feature", "Bug", "Design", "High Priority"]` in that order. -/
theorem C10_tags_nodup_sublist (b t : List Char) :
    (getTaskTags b t).Sublist possibleTags ∧ (getTaskTags b t).Nodup :=
  ⟨List.filter_sublist _, List.Nodup.filter _ (by decide)⟩

/-- C1 counterexample: on the board `"To Do (1)"` the task name `"To Do"`
occurs exactly once, at index 0, and that occurrence lies inside the span of
exactly one column — `To Do`, whose span per the §4.1 marker rule is
`[0, 9)` (marker at 0, no other marker present) — yet `getTaskColumn` throws
the not-found error instead of returning `To Do`: an occurrence sitting
exactly at the span's start index is not attributed (the code requires
`taskIndex > columnIndex`, strictly). -/
theorem C1_counterexample :
    (∀ j, occursAt ("To Do (1)").data ("To Do").data j ↔ j = 0) ∧
    jsIndexOf ("To Do (1)").data (markerL "To Do") 0 = some 0 ∧
    IsSpanEnd ("To Do (1)").data "To Do" 0 9 ∧
    (∀ c' ∈ COLUMNS, c' ≠ "To Do" →
      jsIndexOf ("To Do (1)").data (markerL c') 0 = none) ∧
    getTaskColumn ("To Do (1)").data ("To Do").data =
      .error (taskNotFoundMsg ("To Do").data) := by
  refine ⟨?_, rfl, ?_, ?_, rfl⟩
  · intro j
    constructor
    · intro hocc
      have hj : j < 9 := occursAt_lt_length hocc (by decide)
      interval_cases j
      · rfl
      all_goals exact absurd hocc (by decide)
    · rintro rfl; decide
  · have h := @nextColumnIndexCalc_isSpanEnd
      ("To Do (1)").data "To Do" 0 rfl
    have he : nextColumnIndexCalc ("To Do (1)").data "To Do" 0 = 9 := rfl
    rwa [he] at h
  · intro c' hc' hne
    fin_cases hc'
    · exact absurd rfl hne
    · rfl
    · rfl
    · rfl

/-- C1 (amended): for every board text `b` and task name `t` such that `t`
appears exactly once in `b` and that occurrence lies *strictly inside*
exactly one column's span — strictly after the column's marker index and
before the span's end boundary; an occurrence exactly at the start index
does not count, since the code requires `taskIndex > columnIndex` —
`getTaskColumn` returns that column. -/
theorem C1_unique_occurrence_unique_span (b t : List Char) (i : Nat)
    (c : String) (mi e : Nat)
    (huniq : ∀ j, occursAt b t j ↔ j = i)
    (hc : c ∈ COLUMNS)
    (hmi : jsIndexOf b (markerL c) 0 = some mi)
    (hspan : IsSpanEnd b c mi e)
    (hlo : mi < i) (hhi : i < e)
    (honly : ∀ c' mi' e', c' ∈ COLUMNS → jsIndexOf b (markerL c') 0 = some mi' →
      IsSpanEnd b c' mi' e' → mi' < i → i < e' → c' = c) :
    getTaskColumn b t = .ok c := by
  have hocc : occursAt b t i := (huniq i).mpr rfl
  have hfind : ∀ m, m ≤ i → jsIndexOf b t m = some i := by
    intro m hm
    have hminle : min m b.length ≤ i := le_trans (min_le_left _ _) hm
    obtain ⟨n, hn, _⟩ := jsIndexOf_of_occurs hocc hminle
    have hni : n = i := (huniq n).mp (jsIndexOf_some_occurs hn).1
    subst hni
    exact hn
  have hhit : columnHit b t c := by
    have he : e = nextColumnIndexCalc b c mi :=
      isSpanEnd_unique hspan (nextColumnIndexCalc_isSpanEnd hmi)
    exact ⟨mi, i, hmi, hfind mi (le_of_lt hlo), hlo, he ▸ hhi⟩
  have hothers : ∀ c' ∈ COLUMNS, c' ≠ c → ¬ columnHit b t c' := by
    rintro c' hc' hne ⟨mi', ti', hmi', hti', hlo', hhi'⟩
    have hti : ti' = i := (huniq ti').mp (jsIndexOf_some_occurs hti').1
    subst hti
    exact hne (honly c' mi' (nextColumnIndexCalc b c' mi') hc' hmi'
      (nextColumnIndexCalc_isSpanEnd hmi') hlo' hhi')
  exact getTaskColumnGo_ok COLUMNS hc hhit hothers

theorem C1_unique_occurrence_unique_span_witness :
    (∀ j, occursAt ("To Do (1) x Done (0)").data ("x").data j ↔ j = 10) ∧
    jsIndexOf ("To Do (1) x Done (0)").data (markerL "To Do") 0 = some 0 ∧
    IsSpanEnd ("To Do (1) x Done (0)").data "To Do" 0 12 ∧
    getTaskColumn ("To Do (1) x Done (0)").data ("x").data = .ok "To Do" := by
  have huniq : ∀ j, occursAt ("To Do (1) x Done (0)").data ("x").data j ↔ j = 10 := by
    intro j
    constructor
    · intro hocc
      have hj : j < 20 := occursAt_lt_length hocc (by decide)
      interval_cases j <;> first | rfl | exact absurd hocc (by decide)
    · rintro rfl; decide
  have hspan : IsSpanEnd ("To Do (1) x Done (0)").data "To Do" 0 12 := by
    have h := @nextColumnIndexCalc_isSpanEnd
      ("To Do (1) x Done (0)").data "To Do" 0 rfl
    have he : nextColumnIndexCalc ("To Do (1) x Done (0)").data "To Do" 0 = 12 := rfl
    rwa [he] at h
  have honly : ∀ c' mi' e', c' ∈ COLUMNS →
      jsIndexOf ("To Do (1) x Done (0)").data (markerL c') 0 = some mi' →
      IsSpanEnd ("To Do (1) x Done (0)").data c' mi' e' →
      mi' < 10 → 10 < e' → c' = "To Do" := by
    intro c' mi' e' hc' hmi' _ h1 _
    fin_cases hc'
    · rfl
    · rw [show jsIndexOf ("To Do (1) x Done (0)").data (markerL "In Progress") 0
          = none from rfl] at hmi'
      exact Option.noConfusion hmi'
    · rw [show jsIndexOf ("To Do (1) x Done (0)").data (markerL "Review") 0
          = none from rfl] at hmi'
      exact Option.noConfusion hmi'
    · rw [show jsIndexOf ("To Do (1) x Done (0)").data (markerL "Done") 0
          = some 12 from rfl] at hmi'
      injection hmi' with h
      omega
  exact ⟨huniq, rfl, hspan,
    C1_unique_occurrence_unique_span _ _ 10 "To Do" 0 12 huniq (by decide) rfl
      hspan (by omega) (by omega) honly⟩

/-- C3 counterexample: on the board `"To Do (1) Done (0)"` the span of
`To Do` per the §4.1 marker rule is `[0, 10)` (marker at 0, the `Done`
marker at 10); the first occurrence of the task name `"To Do"` at or after
the start index 0 is at index 0, inside `[0, 10)` and `To Do` is the first
(indeed the only) column whose span contains it — yet `getTaskColumn`
throws instead of attributing the task to `To Do`: the claim's
"including exactly at start" fails, because the code demands
`taskIndex > columnIndex`, strictly. -/
theorem C3_counterexample :
    jsIndexOf ("To Do (1) Done (0)").data (markerL "To Do") 0 = some 0 ∧
    IsSpanEnd ("To Do (1) Done (0)").data "To Do" 0 10 ∧
    jsIndexOf ("To Do (1) Done (0)").data ("To Do").data 0 = some 0 ∧
    getTaskColumn ("To Do (1) Done (0)").data ("To Do").data =
      .error (taskNotFoundMsg ("To Do").data) ∧
    ¬ getTaskColumn ("To Do (1) Done (0)").data ("To Do").data = .ok "To Do" := by
  refine ⟨rfl, ?_, rfl, rfl, ?_⟩
  · have h := @nextColumnIndexCalc_isSpanEnd
      ("To Do (1) Done (0)").data "To Do" 0 rfl
    have he : nextColumnIndexCalc ("To Do (1) Done (0)").data "To Do" 0 = 10 := rfl
    rwa [he] at h
  · intro h
    rw [show getTaskColumn ("To Do (1) Done (0)").data ("To Do").data
        = .error (taskNotFoundMsg ("To Do").data) from rfl] at h
    exact Except.noConfusion h

/-- C3 (amended): a column's span is the interval *strictly* between its
marker index and its end boundary — the start index itself is excluded,
since the code requires `taskIndex > columnIndex` — and a task name whose
first occurrence at or after the marker index falls anywhere strictly inside
that interval (including immediately adjacent to the next column's marker)
is attributed to that column when it is the first column in the fixed order
whose span so contains the task name. -/
theorem C3_strict_span_attribution (b t : List Char) (pre post : List String)
    (c : String)
    (hcols : COLUMNS = pre ++ c :: post)
    (hpre : ∀ c' ∈ pre, ¬ inSpanStrict b t c')
    (hc : inSpanStrict b t c) :
    getTaskColumn b t = .ok c := by
  unfold getTaskColumn
  rw [hcols]
  exact getTaskColumnGo_first _ _
    (fun c' hc' h => hpre c' hc' (columnHit_iff_inSpanStrict.mp h))
    (columnHit_iff_inSpanStrict.mpr hc)

theorem C3_strict_span_attribution_witness :
    COLUMNS = [] ++ "To Do" :: ["In Progress", "Review", "Done"] ∧
    inSpanStrict ("To Do (1) Fix In Progress (0)").data ("Fix").data "To Do" ∧
    getTaskColumn ("To Do (1) Fix In Progress (0)").data ("Fix").data =
      .ok "To Do" := by
  have hspan : IsSpanEnd ("To Do (1) Fix In Progress (0)").data "To Do" 0 14 := by
    have h := @nextColumnIndexCalc_isSpanEnd
      ("To Do (1) Fix In Progress (0)").data "To Do" 0 rfl
    have he : nextColumnIndexCalc ("To Do (1) Fix In Progress (0)").data
        "To Do" 0 = 14 := rfl
    rwa [he] at h
  have hin : inSpanStrict ("To Do (1) Fix In Progress (0)").data ("Fix").data "To Do" :=
    ⟨0, 14, 10, rfl, hspan, rfl, by omega, by omega⟩
  exact ⟨rfl, hin,
    C3_strict_span_attribution _ _ [] ["In Progress", "Review", "Done"] "To Do"
      rfl (by simp) hin⟩
